import Mathlib

/-!
Shallow embedding of `cis_benchmark_excel_converter.py` (the CIS benchmark
PDF-to-Excel converter) and verification of its specification claims.

Strings are modelled as `List Char`.  Python's regex character classes
(`\d`, `\s`, `\w`) and `str.strip()` are modelled over their ASCII meaning,
which is what the benchmark documents contain; regular expressions are
compiled by hand into Lean functions following the greedy, backtrack-free
behaviour the concrete patterns exhibit.  Loops are translated fuel-first
(one fuel unit per iteration); every loop advances its index by at least one
per iteration, so a fuel of `lines.length` is always sufficient and the
`fuel = 0` fallback returns exactly what the Python loop exit returns.
-/

namespace CisConv

/-- View of a Python string as a list of characters. -/
def str (s : String) : List Char := s.data

/-- Python whitespace (ASCII): the characters accepted by `str.strip()` and
by the regex class `\s`. -/
def isSpaceC (c : Char) : Bool :=
  c == ' ' || c == '\t' || c == '\n' || c == '\r' || c == '\x0b' || c == '\x0c'

/-- Regex word character `\w` (ASCII): letters, digits, underscore. -/
def isWordC (c : Char) : Bool := c.isAlpha || c.isDigit || c == '_'

/-- Python `str.strip()`. -/
def stripL (l : List Char) : List Char :=
  ((l.dropWhile isSpaceC).reverse.dropWhile isSpaceC).reverse

/-- Python `str.startswith`. -/
def prefixB : List Char → List Char → Bool
  | [], _ => true
  | _ :: _, [] => false
  | p :: ps, c :: cs => p == c && prefixB ps cs

/-- Python substring test (`pat in l`). -/
def containsSub (pat : List Char) : List Char → Bool
  | [] => prefixB pat []
  | c :: cs => prefixB pat (c :: cs) || containsSub pat cs

/-- One attempted match of `PAGE_PATTERN` (`r'\bPage\s+\d+\b'`, IGNORECASE)
at the current position.  `prev` is the character just before this position
(`none` at the start of the string); it carries the `\b` look-behind.  On a
match, returns the last matched character (a digit, needed as the following
look-behind) and the remainder after the match.  `\s+` and `\d+` are greedy
and no backtracking can rescue a failed attempt, so this is exact. -/
def matchPage (prev : Option Char) (l : List Char) : Option (Char × List Char) :=
  let boundaryBefore : Bool := match prev with | none => true | some c => !isWordC c
  if !boundaryBefore then none else
  match l with
  | p :: a :: g :: e :: rest =>
    if p.toLower == 'p' && a.toLower == 'a' && g.toLower == 'g' && e.toLower == 'e' then
      if (rest.takeWhile isSpaceC).isEmpty then none else
      let r2 := rest.dropWhile isSpaceC
      let ds := r2.takeWhile (·.isDigit)
      if ds.isEmpty then none else
      match r2.dropWhile (·.isDigit) with
      | [] => some (ds.getLastD '0', [])
      | c :: r3 => if isWordC c then none else some (ds.getLastD '0', c :: r3)
    else none
  | _ => none

/-- `PAGE_PATTERN.sub('', text)`: remove the leftmost non-overlapping matches
in one left-to-right pass.  Fuel-structural; every step consumes at least one
character, so fuel = list length is always sufficient. -/
def pageSub : Nat → Option Char → List Char → List Char
  | 0, _, l => l
  | _ + 1, _, [] => []
  | fuel + 1, prev, c :: cs =>
    match matchPage prev (c :: cs) with
    | some q => pageSub fuel (some q.1) q.2
    | none => c :: pageSub fuel (some c) cs

/-- `clean_text`. -/
def cleanText (l : List Char) : List Char := pageSub l.length none l

/-- True when `PAGE_PATTERN` has no match anywhere in `l`, given that the
character just before `l` is `prev`. -/
def pageFree (prev : Option Char) : List Char → Bool
  | [] => true
  | c :: cs => !(matchPage prev (c :: cs)).isSome && pageFree (some c) cs

/-- The `(?:\.\d+)*` tail of `TITLE_PATTERN`'s first group: greedily consume
`.digits` blocks.  Returns (consumed characters, remainder). -/
def dotSegs : Nat → List Char → List Char × List Char
  | 0, l => ([], l)
  | fuel + 1, l =>
    if prefixB (str ".") l then
      let rest := l.drop 1
      let ds := rest.takeWhile (·.isDigit)
      if ds.isEmpty then ([], l)
      else
        let p := dotSegs fuel (rest.dropWhile (·.isDigit))
        ('.' :: (ds ++ p.1), p.2)
    else ([], l)

/-- The optional `(\(L\d+\))?` group of `TITLE_PATTERN`: a parenthesized `L`
followed by one or more digits.  Returns (group 2 text, remainder). -/
def tryLevel (l : List Char) : Option (List Char × List Char) :=
  if prefixB (str "(L") l then
    let rest := l.drop 2
    let ds := rest.takeWhile (·.isDigit)
    let r2 := rest.dropWhile (·.isDigit)
    if ds.isEmpty then none
    else if prefixB (str ")") r2 then some ('(' :: 'L' :: (ds ++ [')']), r2.drop 1)
    else none
  else none

/-- `TITLE_PATTERN = r'^(\d+\.\d+(?:\.\d+)*)\s*(\(L\d+\))?\s*(.*)'` applied
with `re.match` (anchored at the start of the line): returns
(group 1, group 2, group 3) on success.  All quantifiers resolve greedily and
deterministically for this pattern (the subpatterns start with mutually
exclusive character classes), so no backtracking is modelled. -/
def titleMatch (l : List Char) : Option (List Char × Option (List Char) × List Char) :=
  let d1 := l.takeWhile (·.isDigit)
  let r1 := l.dropWhile (·.isDigit)
  if d1.isEmpty then none
  else if prefixB (str ".") r1 then
    let r2 := r1.drop 1
    let d2 := r2.takeWhile (·.isDigit)
    if d2.isEmpty then none
    else
      let r3 := r2.dropWhile (·.isDigit)
      let p := dotSegs r3.length r3
      let num := d1 ++ '.' :: (d2 ++ p.1)
      let afterWs := p.2.dropWhile isSpaceC
      match tryLevel afterWs with
      | some q => some (num, some q.1, q.2.dropWhile isSpaceC)
      | none => some (num, none, afterWs)
  else none

/-- `re.match(r'^(\d+(?:\.\d+)*)', line)`: the number extraction inside
`is_real_test`. -/
def numMatch (l : List Char) : Option (List Char) :=
  let d1 := l.takeWhile (·.isDigit)
  if d1.isEmpty then none
  else
    let r1 := l.dropWhile (·.isDigit)
    let p := dotSegs r1.length r1
    some (d1 ++ p.1)

/-- `str.split('.')`. -/
def splitDot : List Char → List (List Char)
  | [] => [[]]
  | c :: cs =>
    if c == '.' then [] :: splitDot cs
    else
      match splitDot cs with
      | [] => [[c]]
      | h :: t => (c :: h) :: t

/-- `" ".join`. -/
def joinSpace : List (List Char) → List Char
  | [] => []
  | [l] => l
  | l :: ls => l ++ ' ' :: joinSpace ls

/-- The `SECTIONS` list. -/
def SECTIONS : List (List Char) :=
  [str "Profile Applicability:", str "Description:", str "Rationale:", str "Impact:",
   str "Audit:", str "Remediation:", str "Default Value:", str "References:",
   str "Additional Information:"]

def paStr : List Char := str "Profile Applicability:"

/-- `has_profile_applicability`: scans the raw lines with indices
`idx+1 .. min(idx+10, len)-1` — i.e. the next 9 lines — for the substring
`'Profile Applicability:'`. -/
def hasPA (lines : List (List Char)) (idx : Nat) : Bool :=
  ((lines.drop (idx + 1)).take 9).any (fun l => containsSub paStr l)

/-- The automation-tag test of `is_real_test`. -/
def hasTagB (line : List Char) : Bool :=
  containsSub (str "(Automated)") line || containsSub (str "(Manual)") line

/-- `is_real_test`: an automation tag must be present and the leading dotted
number must have at least two segments. -/
def isRealTest (line : List Char) : Bool :=
  hasTagB line &&
    (match numMatch (stripL line) with
     | none => false
     | some n => decide (2 ≤ (splitDot n).length))

/-- The boundary test of `extract_section_content`'s loop: the line starts
with a section label or matches `TITLE_PATTERN`. -/
def isBoundary (line : List Char) : Bool :=
  SECTIONS.any (fun s => prefixB s line) || (titleMatch line).isSome

/-- The while loop of `extract_section_content`: collect cleaned, stripped,
non-blank lines until a boundary line (exclusive).  Returns the collected
lines and the boundary index. -/
def escLoop (lines : List (List Char)) : Nat → Nat → List (List Char) × Nat
  | 0, i => ([], i)
  | fuel + 1, i =>
    if i < lines.length then
      let line := stripL (cleanText (lines.getD i []))
      if isBoundary line then ([], i)
      else
        let p := escLoop lines fuel (i + 1)
        (if line.isEmpty then p.1 else line :: p.1, p.2)
    else ([], i)

/-- `extract_section_content`. -/
def extractSectionContent (lines : List (List Char)) (idx : Nat) : List Char × Nat :=
  let p := escLoop lines lines.length (idx + 1)
  (joinSpace p.1, p.2)

/-- The multi-line-title while loop of `extract_recommendations`: starting
at heading index `i`, keep appending the stripped raw following line while it
is neither a section header nor a `TITLE_PATTERN` match.  Returns the final
index and assembled title. -/
def titleCont (lines : List (List Char)) : Nat → Nat → List Char → Nat × List Char
  | 0, i, title => (i, title)
  | fuel + 1, i, title =>
    if i + 1 < lines.length then
      let nl := stripL (lines.getD (i + 1) [])
      if !(SECTIONS.any (fun s => prefixB s nl)) && !(titleMatch nl).isSome then
        titleCont lines fuel (i + 1) (title ++ ' ' :: nl)
      else (i, title)
    else (i, title)

/-- A recommendation record: the dict built by `extract_recommendations`,
with its fixed `Number`/`Level`/`Title` keys as fields and the section
entries as an insertion-ordered association list. -/
structure Rec where
  number : List Char
  level : List Char
  title : List Char
  sections : List (List Char × List Char)
  deriving DecidableEq

/-- Python dict assignment `d[k] = v` on the section association list. -/
def updateAssoc : List (List Char × List Char) → List Char → List Char →
    List (List Char × List Char)
  | [], k, v => [(k, v)]
  | (k', v') :: t, k, v =>
    if k' == k then (k', v) :: t else (k', v') :: updateAssoc t k v

/-- `current[sec[:-1]] = content`. -/
def setSection (r : Rec) (k v : List Char) : Rec :=
  { r with sections := updateAssoc r.sections k v }

/-- `sec[:-1]`: the section label minus its trailing colon. -/
def secKey (s : List Char) : List Char := s.dropLast

/-- The first section label the line starts with (the `for sec in SECTIONS`
search with `break`). -/
def findSection (line : List Char) : Option (List Char) :=
  SECTIONS.find? (fun s => prefixB s line)

/-- The heading block of one iteration of `extract_recommendations`'s main
loop (the `if match:` part): finalize the previous record, check the
Profile-Applicability lookahead, assemble the multi-line title, and gate on
`is_real_test`.  Returns (new current, new recs, index after the block). -/
def headingStep (lines : List (List Char)) (i : Nat) (line : List Char)
    (current : Option Rec) (recs : List Rec) : Option Rec × List Rec × Nat :=
  match titleMatch line with
  | none => (current, recs, i)
  | some q =>
    let recs1 := recs ++ current.toList
    if hasPA lines i then
      let p := titleCont lines lines.length i q.2.2
      let lvl := q.2.1.getD []
      let fullLine := q.1 ++ ' ' :: (lvl ++ ' ' :: p.2)
      if isRealTest fullLine then (some ⟨q.1, lvl, p.2, []⟩, recs1, p.1)
      else (none, recs1, p.1)
    else (none, recs1, i)

/-- The section block (`if current:` part) of one iteration, run on the
iteration's original cleaned line and the state left by the heading block,
followed by the loop's `i += 1`.  On a section hit Python sets
`i = next_i - 1` and then `i += 1`. -/
def sectionStep (lines : List (List Char)) (line : List Char) (cur : Option Rec)
    (recs1 : List Rec) (i1 : Nat) : Option Rec × List Rec × Nat :=
  match cur with
  | some c =>
    (match findSection line with
     | some sec =>
       let q := extractSectionContent lines i1
       (some (setSection c (secKey sec) q.1), recs1, q.2 - 1 + 1)
     | none => (some c, recs1, i1 + 1))
  | none => (none, recs1, i1 + 1)

/-- One full iteration of the main loop at index `i`. -/
def stepState (lines : List (List Char)) (i : Nat) (current : Option Rec)
    (recs : List Rec) : Option Rec × List Rec × Nat :=
  let line := stripL (cleanText (lines.getD i []))
  let h := headingStep lines i line current recs
  sectionStep lines line h.1 h.2.1 h.2.2

/-- The main while loop of `extract_recommendations`.  Fuel-structural; every
iteration advances the index by at least one, so fuel = number of lines is
always sufficient from index 0, and the fuel-exhausted fallback returns
exactly what the loop exit returns. -/
def scanLoop (lines : List (List Char)) : Nat → Nat → Option Rec → List Rec → List Rec
  | 0, _, current, recs => recs ++ current.toList
  | fuel + 1, i, current, recs =>
    if i < lines.length then
      let st := stepState lines i current recs
      scanLoop lines fuel st.2.2 st.1 st.2.1
    else recs ++ current.toList

/-- The deduplication key `(r.get('Number',''), r.get('Title',''))`. -/
def recKey (r : Rec) : List Char × List Char := (r.number, r.title)

/-- The deduplication loop: `seen` is the set of keys already kept. -/
def dedupAux (seen : List (List Char × List Char)) : List Rec → List Rec
  | [] => []
  | r :: rs =>
    if seen.contains (recKey r) then dedupAux seen rs
    else r :: dedupAux (recKey r :: seen) rs

/-- First-occurrence-wins deduplication by `(Number, Title)`. -/
def dedup (l : List Rec) : List Rec := dedupAux [] l

/-- The record list accumulated by the scan, before deduplication. -/
def rawScan (lines : List (List Char)) : List Rec := scanLoop lines lines.length 0 none []

/-- `extract_recommendations` on an already-split list of lines. -/
def extractRecsLines (lines : List (List Char)) : List Rec := dedup (rawScan lines)

/-- Python `str.splitlines` restricted to the terminators `\n`, `\r\n`, `\r`
(the ones arising from the PDF text assembly). -/
def splitAux (acc : List Char) : List Char → List (List Char)
  | [] => if acc.isEmpty then [] else [acc.reverse]
  | '\r' :: '\n' :: rest => acc.reverse :: splitAux [] rest
  | '\r' :: rest => acc.reverse :: splitAux [] rest
  | '\n' :: rest => acc.reverse :: splitAux [] rest
  | c :: rest => splitAux (c :: acc) rest

def splitlinesPy (l : List Char) : List (List Char) := splitAux [] l

/-- `extract_recommendations`. -/
def extractRecommendations (text : List Char) : List Rec :=
  extractRecsLines (splitlinesPy text)

/-- `get_category`: look up the first dotted segment of the number, falling
back to `'ADDITIONAL'`. -/
def getCategory (number : List Char) (categories : List (List Char × List Char)) :
    List Char :=
  let first := (splitDot number).headD []
  match categories.find? (fun p => p.1 == first) with
  | some p => p.2
  | none => str "ADDITIONAL"

/-- Python `int(s)` on the strings arising here: optional surrounding
whitespace, optional sign, one or more ASCII digits (underscore grouping is
not modelled); `none` models the `ValueError`. -/
def pyInt (l : List Char) : Option Int :=
  let s := stripL l
  let p : Int × List Char :=
    match s with
    | '-' :: rest => (-1, rest)
    | '+' :: rest => (1, rest)
    | _ => (1, s)
  if p.2.isEmpty || !(p.2.all (·.isDigit)) then none
  else some (p.1 * ((p.2.foldl (fun acc c => acc * 10 + (c.toNat - '0'.toNat)) 0 : Nat) : Int))

/-- `get_section_number` inside `write_excel`: the integer value of the first
record's leading dotted segment, with `999` as sentinel for the empty group
or an unparsable segment. -/
def sectionNumber (g : List Char × List Rec) : Int :=
  match g.2 with
  | [] => 999
  | r :: _ =>
    match pyInt ((splitDot r.number).headD []) with
    | some v => v
    | none => 999

/-- `cats[cat].append(rec)` on the insertion-ordered group list (defaultdict
iteration order = first-touch order of keys). -/
def addToGroup : List (List Char × List Rec) → List Char → Rec →
    List (List Char × List Rec)
  | [], k, r => [(k, [r])]
  | (k', rs) :: t, k, r =>
    if k' == k then (k', rs ++ [r]) :: t else (k', rs) :: addToGroup t k r

/-- The grouping loop of `write_excel`. -/
def groupByCat (recs : List Rec) (categories : List (List Char × List Char)) :
    List (List Char × List Rec) :=
  recs.foldl (fun acc r => addToGroup acc (getCategory r.number categories) r) []

/-- Stable insertion into a list sorted by `f` (ascending): the new, earlier
element goes before equal keys, as Python's stable `sorted` does. -/
def insertByKey {α : Type} (f : α → Int) (x : α) : List α → List α
  | [] => [x]
  | y :: ys => if f x ≤ f y then x :: y :: ys else y :: insertByKey f x ys

/-- Stable sort by an integer key (extensionally Python's `sorted(key=...)`). -/
def sortByKey {α : Type} (f : α → Int) : List α → List α
  | [] => []
  | x :: xs => insertByKey f x (sortByKey f xs)

/-- The pure grouping/ordering logic of `write_excel`: group records by
category (first-touch key order), stably sort the groups by
`get_section_number`, then drop empty groups (Python's final filter). -/
def sortedCats (recs : List Rec) (categories : List (List Char × List Char)) :
    List (List Char × List Rec) :=
  (sortByKey sectionNumber (groupByCat recs categories)).filter (fun g => !g.2.isEmpty)

/-- Python `str(n)` for a natural number. -/
def natStr (n : Nat) : List Char := Nat.toDigits 10 n

/-- The sheet-name computation of `create_sheet` (`create_score_sheet`
computes its `ref_name` identically): `f"{idx}. {cat}"`, truncating the
category to 28 characters when the whole name exceeds 31. -/
def sheetName (idx : Nat) (cat : List Char) : List Char :=
  if 31 < (natStr idx ++ '.' :: ' ' :: cat).length then natStr idx ++ '.' :: ' ' :: cat.take 28
  else natStr idx ++ '.' :: ' ' :: cat

/-! ### Helper lemmas -/

/-- If PAGE_PATTERN does not match anywhere, the substitution pass is the
identity. -/
theorem pageSub_of_pageFree :
    ∀ (fuel : Nat) (prev : Option Char) (l : List Char),
      pageFree prev l = true → pageSub fuel prev l = l := by
  intro fuel
  induction fuel with
  | zero => intro prev l _; rfl
  | succ n ih =>
    intro prev l h
    cases l with
    | nil => rfl
    | cons c cs =>
      unfold pageFree at h
      rw [Bool.and_eq_true] at h
      obtain ⟨h1, h2⟩ := h
      cases hm : matchPage prev (c :: cs) with
      | some p => rw [hm] at h1; simp at h1
      | none =>
        simp only [pageSub, hm]
        exact congrArg (c :: ·) (ih (some c) cs h2)

/-- takeWhile/dropWhile on a block of satisfying elements followed by a
non-satisfying one. -/
theorem takeWhile_append_of_all {p : Char → Bool} :
    ∀ (ds : List Char), (∀ c ∈ ds, p c = true) → ∀ (x : Char) (rest : List Char),
      p x = false →
      ((ds ++ x :: rest).takeWhile p = ds ∧ (ds ++ x :: rest).dropWhile p = x :: rest) := by
  intro ds
  induction ds with
  | nil =>
    intro _ x rest hx
    constructor
    · simp [List.takeWhile_cons, hx]
    · simp [List.dropWhile_cons, hx]
  | cons c cs ih =>
    intro h x rest hx
    have hc : p c = true := h c (by simp)
    have := ih (fun d hd => h d (by simp [hd])) x rest hx
    constructor
    · simp [List.takeWhile_cons, hc]; exact this.1
    · simp [List.dropWhile_cons, hc]; exact this.2

/-- The shape checker for the captured level tag: a parenthesized `L`
followed by one or more digits. -/
def isLtagB (l : List Char) : Bool :=
  prefixB (str "(L") l &&
    (!((l.drop 2).takeWhile (·.isDigit)).isEmpty &&
      ((l.drop 2).dropWhile (·.isDigit) == [')']))

/-- Whatever `tryLevel` captures has the `(L<digits>)` shape. -/
theorem tryLevel_isLtag {l lvl r : List Char}
    (h : tryLevel l = some (lvl, r)) : isLtagB lvl = true := by
  unfold tryLevel at h
  dsimp only at h
  split at h
  · split at h
    · simp at h
    · next hne =>
      split at h
      · injection h with h'
        injection h' with hl _
        subst hl
        have hds : ∀ c ∈ (l.drop 2).takeWhile (·.isDigit), (·.isDigit) c = true :=
          fun c hc => List.mem_takeWhile_imp hc
        have hpar : (')' : Char).isDigit = false := by decide
        have hsplit := takeWhile_append_of_all ((l.drop 2).takeWhile (·.isDigit)) hds ')' [] hpar
        unfold isLtagB
        have hpre : prefixB (str "(L")
            ('(' :: 'L' :: ((l.drop 2).takeWhile (·.isDigit) ++ [')'])) = true := by
          simp [prefixB, str]
        rw [hpre]
        simp only [List.drop_succ_cons, List.drop_zero, Bool.true_and]
        rw [Bool.and_eq_true]
        constructor
        · rw [hsplit.1]; simpa using hne
        · rw [hsplit.2]; simp
      · simp at h
  · simp at h

/-! ### Claim C9 -/

/-- Claim C9 (confirmed): the captured level tag is non-empty only when the
token after the number is `(L<digits>)`; any other parenthesized token there,
such as `(Automated)`, is not captured as the level tag and remains part of
the captured title. -/
theorem c9_level_tag :
    (∀ (l n lvl t : List Char),
        titleMatch l = some (n, some lvl, t) → isLtagB lvl = true) ∧
    titleMatch (str "1.2 (Automated) Ensure X") =
      some (str "1.2", none, str "(Automated) Ensure X") := by
  constructor
  · intro l n lvl t h
    unfold titleMatch at h
    dsimp only at h
    split at h
    · simp at h
    · split at h
      · split at h
        · simp at h
        · split at h
          case h_1 q heq =>
            injection h with h'
            injection h' with _ h''
            injection h'' with hlvl _
            injection hlvl with hlvl'
            subst hlvl'
            exact tryLevel_isLtag (by rw [heq])
          case h_2 =>
            injection h with h'
            injection h' with _ h''
            injection h'' with hlvl _
            exact absurd hlvl (by simp)
      · simp at h
  · rfl

/-- Witness for C9: a concrete heading whose level tag is captured, with the
captured tag of the `(L<digits>)` shape. -/
theorem c9_level_tag_witness :
    titleMatch (str "1.2 (L1) Foo") = some (str "1.2", some (str "(L1)"), str "Foo") ∧
    isLtagB (str "(L1)") = true :=
  ⟨by rfl, c9_level_tag.1 (str "1.2 (L1) Foo") (str "1.2") (str "(L1)") (str "Foo") (by rfl)⟩

/-! ### Claim C7 -/

/-- The C7 counterexample input. -/
def c7input : List Char := str "x Page Page 12 3 y"

/-- Counterexample to C7 as stated: `clean_text` is not idempotent.  Removing
`"Page 12"` from the input brings `"Page "` and `" 3"` together, so a second
application removes `"Page  3"` as well. -/
theorem c7_not_idempotent :
    cleanText c7input = str "x Page  3 y" ∧
    cleanText (cleanText c7input) = str "x  y" ∧
    cleanText (cleanText c7input) ≠ cleanText c7input := by
  refine ⟨by rfl, by rfl, by decide⟩

/-- Claim C7 (corrected): the normalizer is a pure function that removes the
leftmost non-overlapping `Page <integer>` matches in a single left-to-right
pass; every input in which the pattern has no match is returned unchanged.
It is not idempotent in general (see the counterexample). -/
theorem clean_text_fixed_of_page_free (s : List Char)
    (h : pageFree none s = true) : cleanText s = s :=
  pageSub_of_pageFree s.length none s h

/-- Witness for the corrected C7 on a concrete match-free line. -/
theorem clean_text_fixed_witness :
    pageFree none (str "no marker here") = true ∧
    cleanText (str "no marker here") = str "no marker here" :=
  ⟨by rfl, clean_text_fixed_of_page_free (str "no marker here") (by rfl)⟩

/-! ### Claim C8 -/

/-- Counterexample to C8 as stated: with the two-digit ordinal 10 and a
28-character category name the truncated sheet name has 32 characters. -/
theorem sheet_name_cex :
    (sheetName 10 (str "ABCDEFGHIJKLMNOPQRSTUVWXYZAB")).length = 32 := by
  rfl

/-- Claim C8 (corrected): the sheet name is at most 31 characters whenever
the 1-based ordinal has a single decimal digit (1..9); for larger ordinals
the truncation target of 28 characters is too long and the bound can fail. -/
theorem sheet_name_le_31 (idx : Nat) (cat : List Char)
    (h1 : 1 ≤ idx) (h2 : idx ≤ 9) : (sheetName idx cat).length ≤ 31 := by
  have hd : (natStr idx).length = 1 := by interval_cases idx <;> rfl
  unfold sheetName
  split
  · simp only [List.length_append, List.length_cons, List.length_take, hd]
    omega
  · next h =>
    simp only [List.length_append, List.length_cons, hd] at h ⊢
    omega

/-- Witness for the corrected C8. -/
theorem sheet_name_le_31_witness :
    1 ≤ 3 ∧ (sheetName 3 (str "ABCDEFGHIJKLMNOPQRSTUVWXYZABCDE")).length ≤ 31 :=
  ⟨by decide, sheet_name_le_31 3 (str "ABCDEFGHIJKLMNOPQRSTUVWXYZABCDE") (by decide) (by decide)⟩

/-! ### Claim C2 -/

/-- The input lines of claim C2. -/
def c2input : List (List Char) :=
  [str "1.2.2 (Automated) Ensure X", str "Profile Applicability:", str "Level 1 - Server",
   str "Description:", str "Does Y", str "1.2.3 (Manual) Ensure Z"]

/-- The record the code actually produces for C2's input. -/
def c2record : Rec :=
  ⟨str "1.2.2", [], str "(Automated) Ensure X",
   [(str "Profile Applicability", str "Level 1 - Server"), (str "Description", str "Does Y")]⟩

/-- Counterexample to C2 as stated: the parser produces exactly one record on
this input, but its title is `"(Automated) Ensure X"`, not `"Ensure X"` — the
level group of TITLE_PATTERN only captures `(L<digits>)`, so `(Automated)`
stays in the captured title. -/
theorem c2_cex :
    extractRecsLines c2input = [c2record] ∧ c2record.title ≠ str "Ensure X" := by
  refine ⟨by rfl, by decide⟩

/-- Claim C2 (corrected): on the example input the parser produces exactly
one record with number `1.2.2`, title `"(Automated) Ensure X"`, and sections
mapping Profile Applicability to `"Level 1 - Server"` and Description to
`"Does Y"`; the scan continues to the `1.2.3` heading, which is rejected (no
Profile Applicability follows it), so no second record appears. -/
theorem c2_example :
    extractRecsLines c2input =
      [⟨str "1.2.2", [], str "(Automated) Ensure X",
        [(str "Profile Applicability", str "Level 1 - Server"),
         (str "Description", str "Does Y")]⟩] := by
  rfl

/-! ### Claim C10 -/

/-- The input lines of claim C10: a page marker inside a title continuation
line and another inside a section content line. -/
def c10input : List (List Char) :=
  [str "1.2.2 (Automated) Ensure foo", str "configured Page 3 properly",
   str "Profile Applicability:", str "Level 1", str "Description:",
   str "does stuff Page 7 end"]

/-- Claim C10 (confirmed): section content lines are passed through
`clean_text` before being stored (the `Page 7` marker disappears from the
Description), while title continuation lines are only stripped, so the
emitted record's title retains the `Page 3` marker. -/
theorem c10_title_keeps_page_marker :
    extractRecsLines c10input =
      [⟨str "1.2.2", [], str "(Automated) Ensure foo configured Page 3 properly",
        [(str "Profile Applicability", str "Level 1"),
         (str "Description", str "does stuff  end")]⟩] ∧
    pageFree none (str "(Automated) Ensure foo configured Page 3 properly") = false ∧
    pageFree none (str "does stuff  end") = true := by
  refine ⟨by rfl, by rfl, by rfl⟩

/-! ### Deduplication lemmas -/

theorem mem_of_mem_dedupAux :
    ∀ (seen : List (List Char × List Char)) (l : List Rec) (r : Rec),
      r ∈ dedupAux seen l → r ∈ l := by
  intro seen l
  induction l generalizing seen with
  | nil => intro r h; simp [dedupAux] at h
  | cons x t ih =>
    intro r h
    unfold dedupAux at h
    split at h
    · exact List.mem_cons_of_mem x (ih seen r h)
    · rcases List.mem_cons.1 h with h' | h'
      · exact h' ▸ List.mem_cons_self x t
      · exact List.mem_cons_of_mem x (ih _ r h')

theorem dedupAux_not_seen :
    ∀ (seen : List (List Char × List Char)) (l : List Rec) (r : Rec),
      r ∈ dedupAux seen l → seen.contains (recKey r) = false := by
  intro seen l
  induction l generalizing seen with
  | nil => intro r h; simp [dedupAux] at h
  | cons x t ih =>
    intro r h
    unfold dedupAux at h
    split at h
    · exact ih seen r h
    · next hx =>
      rcases List.mem_cons.1 h with h' | h'
      · subst h'
        exact Bool.of_not_eq_true hx
      · have := ih (recKey x :: seen) r h'
        rw [List.contains_cons] at this
        exact (Bool.or_eq_false_iff.1 this).2

theorem dedupAux_pairwise :
    ∀ (seen : List (List Char × List Char)) (l : List Rec),
      (dedupAux seen l).Pairwise (fun a b => recKey a ≠ recKey b) := by
  intro seen l
  induction l generalizing seen with
  | nil => simp [dedupAux]
  | cons x t ih =>
    unfold dedupAux
    split
    · exact ih seen
    · refine List.Pairwise.cons ?_ (ih (recKey x :: seen))
      intro b hb
      have := dedupAux_not_seen (recKey x :: seen) t b hb
      rw [List.contains_cons, Bool.or_eq_false_iff] at this
      have hne : recKey b ≠ recKey x := by simpa using this.1
      exact fun he => hne he.symm

theorem dedupAux_key_mem :
    ∀ (seen : List (List Char × List Char)) (l : List Rec)
      (k : List Char × List Char),
      seen.contains k = false → (∃ r ∈ l, recKey r = k) →
      ∃ r ∈ dedupAux seen l, recKey r = k := by
  intro seen l
  induction l generalizing seen with
  | nil => intro k _ h; simp at h
  | cons x t ih =>
    intro k hk h
    obtain ⟨r0, hr0, hkey⟩ := h
    unfold dedupAux
    split
    · next hc =>
      rcases List.mem_cons.1 hr0 with h' | h'
      · subst h'
        rw [hkey] at hc
        rw [hc] at hk
        exact absurd hk (by simp)
      · exact ih seen k hk ⟨r0, h', hkey⟩
    · next hc =>
      by_cases hx : recKey x = k
      · exact ⟨x, List.mem_cons_self _ _, hx⟩
      · have hr0t : r0 ∈ t := by
          rcases List.mem_cons.1 hr0 with h' | h'
          · exact absurd (h' ▸ hkey) hx
          · exact h'
        have hk' : (recKey x :: seen).contains k = false := by
          rw [List.contains_cons, Bool.or_eq_false_iff]
          exact ⟨by simpa using fun he => hx he.symm, hk⟩
        obtain ⟨r, hr, hrk⟩ := ih (recKey x :: seen) k hk' ⟨r0, hr0t, hkey⟩
        exact ⟨r, List.mem_cons_of_mem x hr, hrk⟩

theorem dedupAux_find :
    ∀ (seen : List (List Char × List Char)) (l : List Rec) (r : Rec),
      r ∈ dedupAux seen l →
      l.find? (fun x => recKey x == recKey r) = some r := by
  intro seen l
  induction l generalizing seen with
  | nil => intro r h; simp [dedupAux] at h
  | cons x t ih =>
    intro r h
    unfold dedupAux at h
    split at h
    · next hc =>
      have hrs := dedupAux_not_seen seen t r h
      have hne : recKey x ≠ recKey r := by
        intro he
        rw [← he] at hrs
        rw [hc] at hrs
        exact absurd hrs (by simp)
      rw [List.find?_cons_of_neg t (by simpa using hne)]
      exact ih seen r h
    · next hc =>
      rcases List.mem_cons.1 h with h' | h'
      · subst h'
        exact List.find?_cons_of_pos t (by simp)
      · have hrs := dedupAux_not_seen (recKey x :: seen) t r h'
        rw [List.contains_cons, Bool.or_eq_false_iff] at hrs
        have hne : recKey x ≠ recKey r := by
          have : recKey r ≠ recKey x := by simpa using hrs.1
          exact fun he => this he.symm
        rw [List.find?_cons_of_neg t (by simpa using hne)]
        exact ih (recKey x :: seen) r h'

/-- Among a list with pairwise-distinct keys, a present key is counted
exactly once. -/
theorem countP_key_eq_one :
    ∀ (l : List Rec) (k : List Char × List Char),
      l.Pairwise (fun a b => recKey a ≠ recKey b) →
      (∃ r ∈ l, recKey r = k) →
      l.countP (fun r => recKey r == k) = 1 := by
  intro l
  induction l with
  | nil => intro k _ h; simp at h
  | cons x t ih =>
    intro k hp h
    have hpt := List.Pairwise.sublist (List.sublist_cons_self x t) hp
    have hph : ∀ b ∈ t, recKey x ≠ recKey b := fun b hb => List.rel_of_pairwise_cons hp hb
    rw [List.countP_cons]
    by_cases hx : recKey x = k
    · have ht0 : t.countP (fun r => recKey r == k) = 0 := by
        rw [List.countP_eq_zero]
        intro a ha
        have : recKey x ≠ recKey a := hph a ha
        simp only [beq_iff_eq]
        rw [← hx]
        exact fun he => this he.symm
      rw [ht0]
      simp [hx]
    · obtain ⟨r0, hr0, hkey⟩ := h
      have hr0t : r0 ∈ t := by
        rcases List.mem_cons.1 hr0 with h' | h'
        · exact absurd (h' ▸ hkey) hx
        · exact h'
      rw [ih k hpt ⟨r0, hr0t, hkey⟩]
      simp [hx]

/-! ### Claim C5 -/

/-- Claim C5 (confirmed): the parser's output has at most one record per
(Number, Title) key — its keys are pairwise distinct — and every returned
record is the first record of the raw scan carrying its key (first
occurrence wins, retaining the first-seen section contents). -/
theorem c5_dedup_first_wins (lines : List (List Char)) :
    (extractRecsLines lines).Pairwise (fun a b => recKey a ≠ recKey b) ∧
    ∀ r ∈ extractRecsLines lines,
      (rawScan lines).find? (fun x => recKey x == recKey r) = some r := by
  constructor
  · exact dedupAux_pairwise [] (rawScan lines)
  · intro r hr
    exact dedupAux_find [] (rawScan lines) r hr

/-- Witness for C5 on a concrete input: the single emitted record is the
first raw-scan record with its key. -/
theorem c5_dedup_first_wins_witness :
    (rawScan c2input).find? (fun x => recKey x == recKey c2record) = some c2record :=
  (c5_dedup_first_wins c2input).2 c2record (by decide)

/-! ### Shape lemmas about the heading pattern -/

theorem splitDot_ne_nil : ∀ l : List Char, splitDot l ≠ [] := by
  intro l
  induction l with
  | nil => simp [splitDot]
  | cons c cs _ =>
    unfold splitDot
    split
    · simp
    · split
      · simp
      · simp

theorem two_le_splitDot_append :
    ∀ (a b : List Char), 2 ≤ (splitDot (a ++ '.' :: b)).length := by
  intro a
  induction a with
  | nil =>
    intro b
    simp only [List.nil_append]
    have he : splitDot ('.' :: b) = [] :: splitDot b := by simp [splitDot]
    rw [he]
    simp only [List.length_cons]
    have := List.length_pos.mpr (splitDot_ne_nil b)
    omega
  | cons c a' ih =>
    intro b
    simp only [List.cons_append]
    unfold splitDot
    split
    · simp only [List.length_cons]
      have := List.length_pos.mpr (splitDot_ne_nil (a' ++ '.' :: b))
      omega
    · split
      · next heq => exact absurd heq (splitDot_ne_nil _)
      · next h t heq =>
        simp only [List.length_cons]
        have h2 := ih b
        rw [heq] at h2
        simp only [List.length_cons] at h2
        omega

/-- The number captured by TITLE_PATTERN always has at least two dotted
segments (the pattern requires `\d+\.\d+`). -/
theorem titleMatch_segs {l n : List Char} {lv : Option (List Char)} {t : List Char}
    (h : titleMatch l = some (n, lv, t)) : 2 ≤ (splitDot n).length := by
  unfold titleMatch at h
  dsimp only at h
  split at h
  · simp at h
  · split at h
    · split at h
      · simp at h
      · split at h
        case h_1 q heq =>
          injection h with h'
          injection h' with hnum _
          rw [← hnum]
          exact two_le_splitDot_append _ _
        case h_2 =>
          injection h with h'
          injection h' with hnum _
          rw [← hnum]
          exact two_le_splitDot_append _ _
    · simp at h

/-- A line matched by TITLE_PATTERN starts with a digit. -/
theorem titleMatch_head_digit {l : List Char}
    {x : List Char × Option (List Char) × List Char}
    (h : titleMatch l = some x) : ∃ c cs, l = c :: cs ∧ c.isDigit = true := by
  unfold titleMatch at h
  dsimp only at h
  split at h
  · simp at h
  · next hne =>
    cases l with
    | nil => simp at hne
    | cons c cs =>
      by_cases hc : c.isDigit = true
      · exact ⟨c, cs, rfl, hc⟩
      · rw [List.takeWhile_cons, if_neg (by simpa using hc)] at hne
        simp at hne

theorem ne_digit_head {c x : Char} (hc : c.isDigit = true) (hx : x.isDigit = false) :
    x ≠ c := by
  intro he
  rw [he] at hx
  rw [hc] at hx
  exact absurd hx (by simp)

theorem prefixB_false_head {x c : Char} {xs cs : List Char} (hne : x ≠ c) :
    prefixB (x :: xs) (c :: cs) = false := by
  unfold prefixB
  simp [hne]

/-- Section labels all start with letters, so a line that TITLE_PATTERN
matched (which starts with a digit) starts with none of them. -/
theorem findSection_none_of_digit {c : Char} {cs : List Char}
    (hc : c.isDigit = true) : findSection (c :: cs) = none := by
  rw [findSection, List.find?_eq_none]
  have hsec : ∀ s ∈ SECTIONS, (s.headD ' ').isDigit = false ∧ s ≠ [] := by decide
  intro s hs
  obtain ⟨h1, h2⟩ := hsec s hs
  cases s with
  | nil => exact absurd rfl h2
  | cons x xs =>
    simp only [List.headD_cons] at h1
    rw [prefixB_false_head (ne_digit_head hc h1)]
    simp

/-! ### The record-goodness invariant of the scan (claim C3) -/

/-- The `full_title_line` reassembled from a record's fields
(`f"{Number} {Level} {Title}"`). -/
def fullOf (r : Rec) : List Char := r.number ++ ' ' :: (r.level ++ ' ' :: r.title)

/-- Every record the scan keeps carries an automation tag in its assembled
heading text and a number of at least two dotted segments. -/
def goodRec (r : Rec) : Prop :=
  hasTagB (fullOf r) = true ∧ 2 ≤ (splitDot r.number).length

theorem headingStep_good (lines : List (List Char)) (i : Nat) (line : List Char)
    (cur : Option Rec) (recs : List Rec)
    (hr : ∀ r ∈ recs, goodRec r) (hc : ∀ r, cur = some r → goodRec r) :
    (∀ r ∈ (headingStep lines i line cur recs).2.1, goodRec r) ∧
    (∀ r, (headingStep lines i line cur recs).1 = some r → goodRec r) := by
  have hr1 : ∀ r ∈ recs ++ cur.toList, goodRec r := by
    intro r hmem
    rcases List.mem_append.1 hmem with h | h
    · exact hr r h
    · cases cur with
      | none => simp at h
      | some c =>
        simp only [Option.toList_some, List.mem_singleton] at h
        exact h ▸ hc c rfl
  unfold headingStep
  split
  · exact ⟨hr, hc⟩
  · next q heq =>
    dsimp only
    split
    · split
      · next hreal =>
        refine ⟨hr1, ?_⟩
        intro r hr'
        injection hr' with hr''
        rw [← hr'']
        constructor
        · unfold isRealTest at hreal
          rw [Bool.and_eq_true] at hreal
          exact hreal.1
        · exact titleMatch_segs (show titleMatch line = some (q.1, q.2.1, q.2.2) from by
            rw [heq])
      · exact ⟨hr1, by simp⟩
    · exact ⟨hr1, by simp⟩

theorem sectionStep_good (lines : List (List Char)) (line : List Char)
    (cur : Option Rec) (recs1 : List Rec) (i1 : Nat)
    (h1 : ∀ r ∈ recs1, goodRec r) (h2 : ∀ r, cur = some r → goodRec r) :
    (∀ r ∈ (sectionStep lines line cur recs1 i1).2.1, goodRec r) ∧
    (∀ r, (sectionStep lines line cur recs1 i1).1 = some r → goodRec r) := by
  cases cur with
  | none => exact ⟨by simpa [sectionStep] using h1, by simp [sectionStep]⟩
  | some c =>
    unfold sectionStep
    dsimp only
    split
    · refine ⟨h1, ?_⟩
      intro r hr'
      injection hr' with hr''
      rw [← hr'']
      exact h2 c rfl
    · refine ⟨h1, ?_⟩
      intro r hr'
      injection hr' with hr''
      rw [← hr'']
      exact h2 c rfl

theorem scanLoop_good (lines : List (List Char)) :
    ∀ (fuel i : Nat) (cur : Option Rec) (recs : List Rec),
      (∀ r ∈ recs, goodRec r) → (∀ r, cur = some r → goodRec r) →
      ∀ r ∈ scanLoop lines fuel i cur recs, goodRec r := by
  intro fuel
  induction fuel with
  | zero =>
    intro i cur recs hr hc r hmem
    rcases List.mem_append.1 hmem with h | h
    · exact hr r h
    · cases cur with
      | none => simp at h
      | some c =>
        simp only [Option.toList_some, List.mem_singleton] at h
        exact h ▸ hc c rfl
  | succ f ih =>
    intro i cur recs hr hc r hmem
    rw [scanLoop] at hmem
    split at hmem
    · unfold stepState at hmem
      dsimp only at hmem
      have hh := headingStep_good lines i (stripL (cleanText (lines.getD i [])))
        cur recs hr hc
      have hs := sectionStep_good lines (stripL (cleanText (lines.getD i [])))
        (headingStep lines i (stripL (cleanText (lines.getD i []))) cur recs).1
        (headingStep lines i (stripL (cleanText (lines.getD i []))) cur recs).2.1
        (headingStep lines i (stripL (cleanText (lines.getD i []))) cur recs).2.2
        hh.1 hh.2
      exact ih _ _ _ hs.1 hs.2 r hmem
    · rcases List.mem_append.1 hmem with h | h
      · exact hr r h
      · cases cur with
        | none => simp at h
        | some c =>
          simp only [Option.toList_some, List.mem_singleton] at h
          exact h ▸ hc c rfl

/-! ### Claim C3 -/

/-- Claim C3 (confirmed): every emitted record carries an automation tag in
its assembled heading text and has a number of at least two dotted segments;
hence a heading lacking the tag, or with fewer than two segments, never
yields a record, Profile Applicability or not. -/
theorem c3_no_untagged_records (lines : List (List Char)) :
    ∀ r ∈ extractRecsLines lines,
      hasTagB (fullOf r) = true ∧ 2 ≤ (splitDot r.number).length := by
  intro r hr
  have hraw : r ∈ rawScan lines := mem_of_mem_dedupAux [] _ r hr
  exact scanLoop_good lines lines.length 0 none [] (by simp) (by simp) r hraw

/-- Witness for C3 on a concrete input and record. -/
theorem c3_no_untagged_records_witness :
    hasTagB (fullOf c2record) = true ∧ 2 ≤ (splitDot c2record.number).length :=
  c3_no_untagged_records c2input c2record (by decide)

/-! ### Key-presence invariant of the scan (claim C1) -/

/-- The deduplication key `k` is held by some accumulated or current
record. -/
def keyMem (k : List Char × List Char) (cur : Option Rec) (recs : List Rec) : Prop :=
  (∃ r ∈ recs, recKey r = k) ∨ (∃ r, cur = some r ∧ recKey r = k)

theorem headingStep_key (lines : List (List Char)) (i : Nat) (line : List Char)
    (cur : Option Rec) (recs : List Rec) (k : List Char × List Char)
    (h : keyMem k cur recs) :
    keyMem k (headingStep lines i line cur recs).1 (headingStep lines i line cur recs).2.1 := by
  have h1 : ∃ r ∈ recs ++ cur.toList, recKey r = k := by
    rcases h with ⟨r, hr, hk⟩ | ⟨r, hr, hk⟩
    · exact ⟨r, List.mem_append_left _ hr, hk⟩
    · exact ⟨r, List.mem_append_right _ (by simp [hr]), hk⟩
  unfold headingStep
  split
  · exact h
  · dsimp only
    split
    · split
      · exact Or.inl h1
      · exact Or.inl h1
    · exact Or.inl h1

theorem sectionStep_key (lines : List (List Char)) (line : List Char)
    (cur : Option Rec) (recs1 : List Rec) (i1 : Nat) (k : List Char × List Char)
    (h : keyMem k cur recs1) :
    keyMem k (sectionStep lines line cur recs1 i1).1 (sectionStep lines line cur recs1 i1).2.1 := by
  cases cur with
  | none =>
    rcases h with h | ⟨r, hr, _⟩
    · exact Or.inl (by simpa [sectionStep] using h)
    · exact absurd hr (by simp)
  | some c =>
    unfold sectionStep
    dsimp only
    split
    · rcases h with h | ⟨r, hr, hk⟩
      · exact Or.inl h
      · refine Or.inr ⟨setSection c (secKey _) (extractSectionContent lines i1).1, rfl, ?_⟩
        injection hr with hr'
        rw [← hr'] at hk
        exact hk
    · rcases h with h | ⟨r, hr, hk⟩
      · exact Or.inl h
      · exact Or.inr ⟨r, hr, hk⟩

theorem scanLoop_key (lines : List (List Char)) :
    ∀ (fuel i : Nat) (cur : Option Rec) (recs : List Rec) (k : List Char × List Char),
      keyMem k cur recs → ∃ r ∈ scanLoop lines fuel i cur recs, recKey r = k := by
  intro fuel
  induction fuel with
  | zero =>
    intro i cur recs k h
    rcases h with ⟨r, hr, hk⟩ | ⟨r, hr, hk⟩
    · exact ⟨r, List.mem_append_left _ hr, hk⟩
    · exact ⟨r, List.mem_append_right _ (by simp [hr]), hk⟩
  | succ f ih =>
    intro i cur recs k h
    rw [scanLoop]
    split
    · unfold stepState
      dsimp only
      exact ih _ _ _ k
        (sectionStep_key lines _ _ _ _ k (headingStep_key lines i _ cur recs k h))
    · rcases h with ⟨r, hr, hk⟩ | ⟨r, hr, hk⟩
      · exact ⟨r, List.mem_append_left _ hr, hk⟩
      · exact ⟨r, List.mem_append_right _ (by simp [hr]), hk⟩

/-- When the scan stands on a heading line whose lookahead and automation
gates pass, one iteration finalizes the previous record and installs the new
provisional record, advancing past the consumed title-continuation lines. -/
theorem stepState_heading (lines : List (List Char)) (i : Nat) (cur : Option Rec)
    (recs : List Rec) (n : List Char) (lv : Option (List Char)) (t3 : List Char)
    (hm : titleMatch (stripL (cleanText (lines.getD i []))) = some (n, lv, t3))
    (hpa : hasPA lines i = true)
    (hreal : isRealTest (n ++ ' ' :: ((lv.getD []) ++ ' ' ::
        (titleCont lines lines.length i t3).2)) = true) :
    stepState lines i cur recs =
      (some ⟨n, lv.getD [], (titleCont lines lines.length i t3).2, []⟩,
       recs ++ cur.toList,
       (titleCont lines lines.length i t3).1 + 1) := by
  have hh : headingStep lines i (stripL (cleanText (lines.getD i []))) cur recs =
      (some ⟨n, lv.getD [], (titleCont lines lines.length i t3).2, []⟩,
       recs ++ cur.toList, (titleCont lines lines.length i t3).1) := by
    unfold headingStep
    rw [hm]
    dsimp only
    rw [if_pos hpa, if_pos hreal]
  unfold stepState
  dsimp only
  rw [hh]
  dsimp only
  obtain ⟨c, cs, hl, hc⟩ := titleMatch_head_digit hm
  unfold sectionStep
  dsimp only
  rw [hl, findSection_none_of_digit hc]

/-! ### Claim C1 -/

/-- The C1 counterexample input A: the Profile Applicability line sits on the
10th line after the heading, one past the code's 9-line window. -/
def c1inA : List (List Char) :=
  [str "1.1.1 (Automated) Ensure T", str "aaa", str "bbb", str "ccc", str "ddd",
   str "eee", str "fff", str "ggg", str "hhh", str "iii",
   str "Profile Applicability:", str "Level 1"]

/-- The C1 counterexample input B: the raw line 1 starts with a page marker,
so the previous heading's title continuation absorbs it, although its cleaned
form is a fully valid heading. -/
def c1inB : List (List Char) :=
  [str "1.1.1 (Automated) Foo", str "Page 3 2.2.2 (Automated) Bar",
   str "Profile Applicability:", str "Level 1"]

/-- Counterexample to C1 as stated.  Input A satisfies every condition of the
claim — heading with two-plus-segment number, "Profile Applicability:"
within 10 lines after it, automation tag in the assembled heading — yet the
parser emits nothing, because `has_profile_applicability` scans only 9 lines
(`range(idx+1, idx+10)`).  Input B has a fully valid heading (satisfying even
the 9-line window) at index 1, yet no record with its number is emitted,
because the heading line is absorbed into the previous heading's title
continuation (which inspects the raw line, not the page-cleaned one). -/
theorem c1_cex :
    ((titleMatch (stripL (cleanText (c1inA.getD 0 [])))).isSome = true ∧
     ((c1inA.drop 1).take 10).any (fun l => containsSub paStr l) = true ∧
     hasTagB (str "1.1.1" ++ ' ' :: ([] ++ ' ' ::
       (titleCont c1inA c1inA.length 0 (str "(Automated) Ensure T")).2)) = true ∧
     extractRecsLines c1inA = []) ∧
    (titleMatch (stripL (cleanText (c1inB.getD 1 []))) =
       some (str "2.2.2", none, str "(Automated) Bar") ∧
     hasPA c1inB 1 = true ∧
     isRealTest (str "2.2.2" ++ ' ' :: ([] ++ ' ' ::
       (titleCont c1inB c1inB.length 1 (str "(Automated) Bar")).2)) = true ∧
     (extractRecsLines c1inB).all (fun r => !(r.number == str "2.2.2")) = true) := by
  refine ⟨⟨by rfl, by rfl, by rfl, by rfl⟩, ⟨by rfl, by rfl, by rfl, by rfl⟩⟩

/-- Claim C1 (corrected): whenever the scan, in any state, stands on a
heading line whose cleaned text matches the heading pattern (hence the number
has at least two dotted segments), with a "Profile Applicability:" line
within 9 lines after it and an automation tag in the fully assembled heading
text, the deduplicated output contains exactly one record with that number
and the fully assembled title. -/
theorem c1_heading_emits_once (lines : List (List Char)) (fuel i : Nat)
    (cur : Option Rec) (recs : List Rec)
    (n : List Char) (lv : Option (List Char)) (t3 : List Char)
    (hi : i < lines.length) (hfuel : lines.length ≤ fuel + i)
    (hm : titleMatch (stripL (cleanText (lines.getD i []))) = some (n, lv, t3))
    (hpa : hasPA lines i = true)
    (hreal : isRealTest (n ++ ' ' :: ((lv.getD []) ++ ' ' ::
        (titleCont lines lines.length i t3).2)) = true) :
    (dedup (scanLoop lines fuel i cur recs)).countP
      (fun r => recKey r == (n, (titleCont lines lines.length i t3).2)) = 1 := by
  cases fuel with
  | zero => omega
  | succ f =>
    have hstep : scanLoop lines (f + 1) i cur recs =
        scanLoop lines f (stepState lines i cur recs).2.2 (stepState lines i cur recs).1
          (stepState lines i cur recs).2.1 := by
      rw [scanLoop, if_pos hi]
    rw [hstep, stepState_heading lines i cur recs n lv t3 hm hpa hreal]
    dsimp only
    have hkey := scanLoop_key lines f ((titleCont lines lines.length i t3).1 + 1)
      (some ⟨n, lv.getD [], (titleCont lines lines.length i t3).2, []⟩)
      (recs ++ cur.toList) (n, (titleCont lines lines.length i t3).2)
      (Or.inr ⟨_, rfl, rfl⟩)
    exact countP_key_eq_one _ _ (dedupAux_pairwise [] _)
      (dedupAux_key_mem [] _ _ (by simp) hkey)

/-- The witness input for the corrected C1. -/
def c1winput : List (List Char) :=
  [str "1.2.2 (Automated) Ensure X", str "Profile Applicability:", str "Level 1"]

/-- Witness for the corrected C1 at a concrete good heading, starting the
scan at index 0 in the initial state (exactly `extract_recommendations`). -/
theorem c1_heading_emits_once_witness :
    (dedup (scanLoop c1winput 3 0 none [])).countP
      (fun r => recKey r ==
        (str "1.2.2", (titleCont c1winput c1winput.length 0 (str "(Automated) Ensure X")).2)) = 1 :=
  c1_heading_emits_once c1winput 3 0 none [] (str "1.2.2") none
    (str "(Automated) Ensure X") (by decide) (by decide) (by rfl) (by rfl) (by rfl)

/-! ### Boundary correctness of section-content collection (claim C4) -/

/-- Full characterization of `extract_section_content`'s loop: the returned
index is the first boundary position at or after the start (or the end of
input), and the collected lines are exactly the cleaned, stripped, non-blank
lines strictly before it. -/
theorem escLoop_spec (lines : List (List Char)) :
    ∀ (fuel i : Nat), lines.length ≤ i + fuel → i ≤ lines.length →
      i ≤ (escLoop lines fuel i).2 ∧
      (escLoop lines fuel i).2 ≤ lines.length ∧
      ((escLoop lines fuel i).2 < lines.length →
        isBoundary (stripL (cleanText (lines.getD (escLoop lines fuel i).2 []))) = true) ∧
      (∀ k, i ≤ k → k < (escLoop lines fuel i).2 →
        isBoundary (stripL (cleanText (lines.getD k []))) = false) ∧
      (escLoop lines fuel i).1 =
        (((lines.drop i).take ((escLoop lines fuel i).2 - i)).map
          (fun l => stripL (cleanText l))).filter (fun l => !l.isEmpty) := by
  intro fuel
  induction fuel with
  | zero =>
    intro i hf hi
    simp only [escLoop]
    refine ⟨le_refl i, hi, by omega, fun k hk1 hk2 => by omega, by simp⟩
  | succ f ih =>
    intro i hf hi
    by_cases hil : i < lines.length
    · simp only [escLoop]
      rw [if_pos hil]
      by_cases hb : isBoundary (stripL (cleanText (lines.getD i []))) = true
      · rw [if_pos hb]
        refine ⟨le_refl i, hi, fun _ => hb, fun k hk1 hk2 => by omega, by simp⟩
      · rw [if_neg hb]
        have hrec := ih (i + 1) (by omega) (by omega)
        dsimp only
        have h21 : i ≤ (escLoop lines f (i + 1)).2 := by
          have := hrec.1
          omega
        refine ⟨h21, hrec.2.1, hrec.2.2.1, ?_, ?_⟩
        · intro k hk1 hk2
          by_cases hk : k = i
          · subst hk
            exact Bool.of_not_eq_true hb
          · exact hrec.2.2.2.1 k (by omega) hk2
        · have hdrop : lines.drop i = lines.getD i [] :: lines.drop (i + 1) := by
            rw [List.getD_eq_getElem lines [] hil]
            exact List.drop_eq_getElem_cons hil
          have harith : (escLoop lines f (i + 1)).2 - i =
              ((escLoop lines f (i + 1)).2 - (i + 1)) + 1 := by
            have := hrec.1
            omega
          rw [hdrop, harith, List.take_succ_cons, List.map_cons, List.filter_cons]
          by_cases he : (stripL (cleanText (lines.getD i []))).isEmpty = true
          · rw [if_pos he, hrec.2.2.2.2, he]
            simp
          · rw [if_neg he, hrec.2.2.2.2]
            have : (stripL (cleanText (lines.getD i []))).isEmpty = false :=
              Bool.of_not_eq_true he
            rw [this]
            simp
    · simp only [escLoop]
      rw [if_neg hil]
      refine ⟨le_refl i, hi, by omega, fun k hk1 hk2 => by omega, by simp⟩

/-! ### Claim C4 -/

/-- Claim C4 (confirmed): the content collected for a section consists
exactly of the lines strictly between the section-header line and the first
following line whose cleaned, stripped text starts with a section label or
matches the heading pattern (or the end of input); that boundary line is not
consumed — the returned index points at it — and the collected lines are
page-cleaned, trimmed, blank-skipped, and joined with single spaces. -/
theorem c4_section_boundaries (lines : List (List Char)) (idx : Nat)
    (hidx : idx < lines.length) :
    ∃ j, idx + 1 ≤ j ∧ j ≤ lines.length ∧
      (∀ k, idx + 1 ≤ k → k < j →
        isBoundary (stripL (cleanText (lines.getD k []))) = false) ∧
      (j < lines.length → isBoundary (stripL (cleanText (lines.getD j []))) = true) ∧
      extractSectionContent lines idx =
        (joinSpace ((((lines.drop (idx + 1)).take (j - (idx + 1))).map
          (fun l => stripL (cleanText l))).filter (fun l => !l.isEmpty)), j) := by
  have h := escLoop_spec lines lines.length (idx + 1) (by omega) (by omega)
  refine ⟨(escLoop lines lines.length (idx + 1)).2, h.1, h.2.1, h.2.2.2.1, h.2.2.1, ?_⟩
  have hesc : extractSectionContent lines idx =
      (joinSpace (escLoop lines lines.length (idx + 1)).1,
       (escLoop lines lines.length (idx + 1)).2) := rfl
  rw [hesc, h.2.2.2.2]

/-- Witness for C4 at the Profile Applicability section of the concrete C2
input (the boundary is the "Description:" line at index 3). -/
theorem c4_section_boundaries_witness :
    1 < c2input.length ∧
    ∃ j, 1 + 1 ≤ j ∧ j ≤ c2input.length ∧
      (∀ k, 1 + 1 ≤ k → k < j →
        isBoundary (stripL (cleanText (c2input.getD k []))) = false) ∧
      (j < c2input.length → isBoundary (stripL (cleanText (c2input.getD j []))) = true) ∧
      extractSectionContent c2input 1 =
        (joinSpace ((((c2input.drop (1 + 1)).take (j - (1 + 1))).map
          (fun l => stripL (cleanText l))).filter (fun l => !l.isEmpty)), j) :=
  ⟨by decide, c4_section_boundaries c2input 1 (by decide)⟩

/-! ### Sorting and grouping lemmas (claim C6) -/

theorem mem_insertByKey {α : Type} (f : α → Int) (x a : α) :
    ∀ l : List α, a ∈ insertByKey f x l ↔ a = x ∨ a ∈ l := by
  intro l
  induction l with
  | nil => simp [insertByKey]
  | cons y ys ih =>
    unfold insertByKey
    split
    · simp [List.mem_cons]
    · simp only [List.mem_cons, ih]
      tauto

theorem pairwise_insertByKey {α : Type} (f : α → Int) (x : α) :
    ∀ l : List α, l.Pairwise (fun a b => f a ≤ f b) →
      (insertByKey f x l).Pairwise (fun a b => f a ≤ f b) := by
  intro l
  induction l with
  | nil => intro _; simp [insertByKey]
  | cons y ys ih =>
    intro hp
    have hy : ∀ b ∈ ys, f y ≤ f b := fun b hb => List.rel_of_pairwise_cons hp hb
    have hys := hp.of_cons
    unfold insertByKey
    split
    · next hle =>
      refine List.Pairwise.cons ?_ hp
      intro b hb
      rcases List.mem_cons.1 hb with rfl | hb'
      · exact hle
      · exact le_trans hle (hy b hb')
    · next hnle =>
      refine List.Pairwise.cons ?_ (ih hys)
      intro b hb
      rcases (mem_insertByKey f x b ys).1 hb with rfl | hb'
      · omega
      · exact hy b hb'

theorem sortByKey_pairwise {α : Type} (f : α → Int) :
    ∀ l : List α, (sortByKey f l).Pairwise (fun a b => f a ≤ f b) := by
  intro l
  induction l with
  | nil => simp [sortByKey]
  | cons x xs ih =>
    unfold sortByKey
    exact pairwise_insertByKey f x _ ih

theorem mem_sortByKey {α : Type} (f : α → Int) (a : α) :
    ∀ l : List α, a ∈ sortByKey f l ↔ a ∈ l := by
  intro l
  induction l with
  | nil => simp [sortByKey]
  | cons x xs ih =>
    unfold sortByKey
    rw [mem_insertByKey]
    simp [ih]

theorem addToGroup_inv (categories : List (List Char × List Char)) :
    ∀ (acc : List (List Char × List Rec)) (k : List Char) (r : Rec),
      (∀ g ∈ acc, g.2 ≠ [] ∧ ∀ x ∈ g.2, getCategory x.number categories = g.1) →
      getCategory r.number categories = k →
      ∀ g ∈ addToGroup acc k r,
        g.2 ≠ [] ∧ ∀ x ∈ g.2, getCategory x.number categories = g.1 := by
  intro acc
  induction acc with
  | nil =>
    intro k r _ hk g hg
    simp only [addToGroup, List.mem_singleton] at hg
    subst hg
    refine ⟨by simp, ?_⟩
    intro x hx
    simp only [List.mem_singleton] at hx
    subst hx
    exact hk
  | cons p t ih =>
    intro k r hacc hk g hg
    obtain ⟨k', rs⟩ := p
    unfold addToGroup at hg
    split at hg
    · next heq =>
      rcases List.mem_cons.1 hg with rfl | hg'
      · refine ⟨by simp, ?_⟩
        intro x hx
        rcases List.mem_append.1 hx with hx' | hx'
        · exact (hacc (k', rs) (List.mem_cons_self _ _)).2 x hx'
        · simp only [List.mem_singleton] at hx'
          subst hx'
          rw [hk]
          exact (eq_of_beq heq).symm
      · exact hacc g (List.mem_cons_of_mem _ hg')
    · rcases List.mem_cons.1 hg with rfl | hg'
      · exact hacc (k', rs) (List.mem_cons_self _ _)
      · exact ih k r (fun g' hg'' => hacc g' (List.mem_cons_of_mem _ hg'')) hk g hg'

theorem groupByCat_inv (categories : List (List Char × List Char)) (recs : List Rec) :
    ∀ g ∈ groupByCat recs categories,
      g.2 ≠ [] ∧ ∀ x ∈ g.2, getCategory x.number categories = g.1 := by
  suffices h : ∀ (rest : List Rec) (acc : List (List Char × List Rec)),
      (∀ g ∈ acc, g.2 ≠ [] ∧ ∀ x ∈ g.2, getCategory x.number categories = g.1) →
      ∀ g ∈ rest.foldl (fun acc r => addToGroup acc (getCategory r.number categories) r) acc,
        g.2 ≠ [] ∧ ∀ x ∈ g.2, getCategory x.number categories = g.1 by
    exact h recs [] (by simp)
  intro rest
  induction rest with
  | nil => intro acc hacc; simpa using hacc
  | cons r rs ih =>
    intro acc hacc
    simp only [List.foldl_cons]
    exact ih _ (addToGroup_inv categories acc _ r hacc rfl)

theorem addToGroup_mem_self :
    ∀ (acc : List (List Char × List Rec)) (k : List Char) (r : Rec),
      ∃ g ∈ addToGroup acc k r, g.1 = k ∧ r ∈ g.2 := by
  intro acc
  induction acc with
  | nil =>
    intro k r
    exact ⟨(k, [r]), by simp [addToGroup], rfl, by simp⟩
  | cons p t ih =>
    intro k r
    obtain ⟨k', rs⟩ := p
    unfold addToGroup
    split
    · next heq => exact ⟨(k', rs ++ [r]), List.mem_cons_self _ _, eq_of_beq heq, by simp⟩
    · obtain ⟨g, hg, h1, h2⟩ := ih k r
      exact ⟨g, List.mem_cons_of_mem _ hg, h1, h2⟩

theorem addToGroup_mono :
    ∀ (acc : List (List Char × List Rec)) (k : List Char) (r : Rec)
      (g : List Char × List Rec), g ∈ acc →
      ∃ g' ∈ addToGroup acc k r, g'.1 = g.1 ∧ ∀ x ∈ g.2, x ∈ g'.2 := by
  intro acc
  induction acc with
  | nil => intro k r g hg; simp at hg
  | cons p t ih =>
    intro k r g hg
    obtain ⟨k', rs⟩ := p
    unfold addToGroup
    split
    · rcases List.mem_cons.1 hg with rfl | hg'
      · exact ⟨(k', rs ++ [r]), List.mem_cons_self _ _, rfl,
          fun x hx => List.mem_append_left _ hx⟩
      · exact ⟨g, List.mem_cons_of_mem _ hg', rfl, fun x hx => hx⟩
    · rcases List.mem_cons.1 hg with rfl | hg'
      · exact ⟨(k', rs), List.mem_cons_self _ _, rfl, fun x hx => hx⟩
      · obtain ⟨g', hg'', h1, h2⟩ := ih k r g hg'
        exact ⟨g', List.mem_cons_of_mem _ hg'', h1, h2⟩

theorem groupByCat_complete (categories : List (List Char × List Char)) (recs : List Rec) :
    ∀ r ∈ recs, ∃ g ∈ groupByCat recs categories,
      g.1 = getCategory r.number categories ∧ r ∈ g.2 := by
  suffices h : ∀ (rest : List Rec) (acc : List (List Char × List Rec)) (r : Rec),
      ((∃ g ∈ acc, g.1 = getCategory r.number categories ∧ r ∈ g.2) ∨ r ∈ rest) →
      ∃ g ∈ rest.foldl (fun acc x => addToGroup acc (getCategory x.number categories) x) acc,
        g.1 = getCategory r.number categories ∧ r ∈ g.2 by
    intro r hr
    exact h recs [] r (Or.inr hr)
  intro rest
  induction rest with
  | nil =>
    intro acc r h
    rcases h with h | h
    · simpa using h
    · simp at h
  | cons x xs ih =>
    intro acc r h
    simp only [List.foldl_cons]
    rcases h with ⟨g, hg, h1, h2⟩ | hx
    · obtain ⟨g', hg', he, hsub⟩ := addToGroup_mono acc (getCategory x.number categories) x g hg
      exact ih _ r (Or.inl ⟨g', hg', he.trans h1, hsub r h2⟩)
    · rcases List.mem_cons.1 hx with rfl | hxs
      · obtain ⟨g, hg, h1, h2⟩ := addToGroup_mem_self acc (getCategory r.number categories) r
        exact ih _ r (Or.inl ⟨g, hg, h1, h2⟩)
      · exact ih _ r (Or.inr hxs)

/-! ### Claim C6 -/

def recA : Rec := ⟨str "1.1", [], str "A", []⟩

def recB : Rec := ⟨str "2.1", [], str "B", []⟩

def catsFoo : List (List Char × List Char) := [(str "2", str "FOO")]

/-- Counterexample to C6 as stated: the catch-all "ADDITIONAL" category is
not grouped last.  It is ordered, like any other category, by the numeric
value of its first record's leading segment: with an unmapped record "1.1"
and a mapped record "2.1", "ADDITIONAL" comes first and "FOO" after it. -/
theorem c6_cex :
    (sortedCats [recA, recB] catsFoo).map Prod.fst = [str "ADDITIONAL", str "FOO"] ∧
    str "FOO" ≠ str "ADDITIONAL" := by
  refine ⟨by rfl, by decide⟩

/-- Claim C6 (corrected): the workbook builder's category list is sorted
ascending by `get_section_number` (the integer value of the first record's
leading dotted segment, with the sentinel 999 for empty groups or
unparsable segments), contains no empty group, groups exactly the records of
its category, covers every input record, and resolves unmapped leading
segments to "ADDITIONAL" — which is ordered like any other category, not
necessarily last. -/
theorem c6_category_order (recs : List Rec) (categories : List (List Char × List Char)) :
    (sortedCats recs categories).Pairwise (fun g g' => sectionNumber g ≤ sectionNumber g') ∧
    (∀ g ∈ sortedCats recs categories, g.2 ≠ []) ∧
    (∀ g ∈ sortedCats recs categories, ∀ x ∈ g.2, getCategory x.number categories = g.1) ∧
    (∀ r ∈ recs, ∃ g ∈ sortedCats recs categories,
      g.1 = getCategory r.number categories ∧ r ∈ g.2) ∧
    (∀ num : List Char,
      categories.find? (fun p => p.1 == (splitDot num).headD []) = none →
      getCategory num categories = str "ADDITIONAL") := by
  refine ⟨?_, ?_, ?_, ?_, ?_⟩
  · exact List.Pairwise.sublist (List.filter_sublist _) (sortByKey_pairwise sectionNumber _)
  · intro g hg
    have h2 := (List.mem_filter.1 hg).2
    simpa using h2
  · intro g hg x hx
    have hg' : g ∈ groupByCat recs categories :=
      (mem_sortByKey sectionNumber g _).1 (List.mem_filter.1 hg).1
    exact (groupByCat_inv categories recs g hg').2 x hx
  · intro r hr
    obtain ⟨g, hg, h1, h2⟩ := groupByCat_complete categories recs r hr
    refine ⟨g, ?_, h1, h2⟩
    unfold sortedCats
    refine List.mem_filter.2 ⟨(mem_sortByKey sectionNumber g _).2 hg, ?_⟩
    simp only [Bool.not_eq_eq_eq_not, Bool.not_false]
    simpa using List.ne_nil_of_mem h2
  · intro num h
    show (match List.find? (fun p => p.1 == (splitDot num).headD []) categories with
          | some p => p.2
          | none => str "ADDITIONAL") = str "ADDITIONAL"
    rw [h]

/-- Witness for the corrected C6 on the concrete two-record input: the
unmapped record "1.1" lands in a group named "ADDITIONAL". -/
theorem c6_category_order_witness :
    ∃ g ∈ sortedCats [recA, recB] catsFoo,
      g.1 = getCategory recA.number catsFoo ∧ recA ∈ g.2 :=
  (c6_category_order [recA, recB] catsFoo).2.2.2.1 recA (by decide)

end CisConv
